import Mathlib

/-!
Verification of the command-extraction and reporting pipeline of `ai_shell.py`
(functions `clean_ai_response`, `execute_command`, and the dispatch guard in
`main`).  Python strings are modelled as `List Char`; the fallible
`shlex.split` tokenizer is modelled as a function into `Option`, where `none`
corresponds to a raised `ValueError` (unbalanced quote or dangling escape).
-/

set_option maxRecDepth 4000

/-- Whitespace set of Python `str.strip()` (ASCII part): space, tab, newline,
carriage return, vertical tab, form feed. -/
def isPyWs (c : Char) : Bool :=
  c == ' ' || c == '\t' || c == '\n' || c == '\r' ||
  c == Char.ofNat 11 || c == Char.ofNat 12

/-- Whitespace set of Python's `shlex` lexer: space, tab, carriage return,
newline. -/
def isShWs (c : Char) : Bool :=
  c == ' ' || c == '\t' || c == '\r' || c == '\n'

/-- Drop trailing characters satisfying `f` (helper for `str.strip()`). -/
def dropTrail (f : Char → Bool) (l : List Char) : List Char :=
  (l.reverse.dropWhile f).reverse

/-- Python `str.strip()` on a character list: remove leading and trailing
whitespace. -/
def pyStripL (l : List Char) : List Char :=
  dropTrail isPyWs (l.dropWhile isPyWs)

/-- Python `str.strip()` at the `String` level. -/
def pyStripS (s : String) : String :=
  String.mk (pyStripL s.toList)

/-- Substring test: `hasSub pat l` is `true` iff `pat` occurs contiguously in
`l` (Python `pat in l`). -/
def hasSub (pat : List Char) : List Char → Bool
  | [] => pat.isEmpty
  | c :: rest => pat.isPrefixOf (c :: rest) || hasSub pat rest

/-- Python `s in t` at the `String` level: `strContains s pat` is `true` iff
`pat` occurs in `s`. -/
def strContains (s pat : String) : Bool :=
  hasSub pat.toList s.toList

/-- Python `str.replace(pat, "")`: delete every non-overlapping occurrence of
`pat`, scanning left to right.  An empty pattern leaves the string unchanged
(as Python does when the replacement is empty). -/
def removeFuel (pat : List Char) : Nat → List Char → List Char
  | _, [] => []
  | 0, l => l
  | fuel + 1, c :: rest =>
    if pat ≠ [] ∧ pat.isPrefixOf (c :: rest) then
      removeFuel pat fuel (List.drop pat.length (c :: rest))
    else
      c :: removeFuel pat fuel rest

/-- The replacement scan started with enough fuel to consume the whole input
(each step consumes at least one character, so `l.length` steps suffice). -/
def removeAllL (pat l : List Char) : List Char :=
  removeFuel pat l.length l

/-- Python `str.split("&&")`: split at each non-overlapping occurrence of the
two-character separator `&&`, scanning left to right, keeping empty pieces. -/
def splitAmp : List Char → List (List Char)
  | [] => [[]]
  | '&' :: '&' :: rest => [] :: splitAmp rest
  | c :: rest =>
    match splitAmp rest with
    | [] => [[c]]
    | p :: ps => (c :: p) :: ps

/-- Lexer states of Python's `shlex` in POSIX mode: between/inside a plain
word (with the pending token, if any), inside a single-quoted section, inside
a double-quoted section, after an escape character outside quotes, and after
an escape character inside double quotes. -/
inductive SMode : Type
  | norm : Option (List Char) → SMode
  | squote : List Char → SMode
  | dquote : List Char → SMode
  | escN : List Char → SMode
  | escD : List Char → SMode

/-- One-pass model of `shlex.split` (POSIX rules, whitespace splitting):
returns the token list, or `none` where CPython raises `ValueError`
(end of input inside a quoted section or right after an escape character). -/
def shlexRun : SMode → List Char → Option (List (List Char))
  | .norm none, [] => some []
  | .norm (some t), [] => some [t]
  | .squote _, [] => none
  | .dquote _, [] => none
  | .escN _, [] => none
  | .escD _, [] => none
  | .norm cur, c :: rest =>
    if isShWs c then
      match cur with
      | none => shlexRun (.norm none) rest
      | some t => (shlexRun (.norm none) rest).map (fun ts => t :: ts)
    else if c = Char.ofNat 39 then
      shlexRun (.squote (cur.getD [])) rest
    else if c = '"' then
      shlexRun (.dquote (cur.getD [])) rest
    else if c = '\\' then
      shlexRun (.escN (cur.getD [])) rest
    else
      shlexRun (.norm (some (cur.getD [] ++ [c]))) rest
  | .squote t, c :: rest =>
    if c = Char.ofNat 39 then shlexRun (.norm (some t)) rest
    else shlexRun (.squote (t ++ [c])) rest
  | .dquote t, c :: rest =>
    if c = '"' then shlexRun (.norm (some t)) rest
    else if c = '\\' then shlexRun (.escD t) rest
    else shlexRun (.dquote (t ++ [c])) rest
  | .escN t, c :: rest =>
    shlexRun (.norm (some (t ++ [c]))) rest
  | .escD t, c :: rest =>
    if c = '"' ∨ c = '\\' then shlexRun (.dquote (t ++ [c])) rest
    else shlexRun (.dquote (t ++ ['\\', c])) rest

/-- Model of `shlex.split` on a character list. -/
def shlexSplitL (l : List Char) : Option (List (List Char)) :=
  shlexRun (.norm none) l

/-- Model of `shlex.split` at the `String` level. -/
def shlexSplit (s : String) : Option (List String) :=
  (shlexSplitL s.toList).map (fun ts => ts.map String.mk)

/-- Allowlist of permitted leading command words (`ai_shell.py` lines
20-23). -/
def allowed_commands : List String :=
  ["ls", "cd", "pwd", "mkdir", "touch", "rm", "cp", "mv",
   "cat", "echo", "git", "npm", "pip"]

/-- The allowlist as character lists. -/
def allowedL : List (List Char) :=
  allowed_commands.map String.toList

/-- Known tool-name markers removed from replies (`ai_shell.py` line 29). -/
def tool_prefixes : List String :=
  ["file_manager", "web_search", "system_control"]

/-- Character list of the literal `echo` tested by the redirection
exception. -/
def echoL : List Char := "echo".toList

/-- Character list of the literal `>` tested by the redirection exception. -/
def gtL : List Char := ">".toList

/-- Loop body of `clean_ai_response` (`ai_shell.py` lines 37-56): `acc` is the
`cleaned_commands` accumulator; each raw segment is stripped, kept verbatim if
it contains both `echo` and `>`, otherwise tokenized with `shlex.split`
(failures and empty token lists are skipped) and kept iff its first token is
in the allowlist. -/
def clean_go : List (List Char) → List (List Char) → List (List Char)
  | [], acc => acc
  | cmd :: rest, acc =>
    let c := pyStripL cmd
    if hasSub echoL c && hasSub gtL c then
      clean_go rest (acc ++ [c])
    else
      match shlexSplitL c with
      | none => clean_go rest acc
      | some [] => clean_go rest acc
      | some (w :: _) =>
        if w ∈ allowedL then clean_go rest (acc ++ [c]) else clean_go rest acc

/-- The segment loop started with an empty accumulator. -/
def clean_loop (cmds : List (List Char)) : List (List Char) :=
  clean_go cmds []

/-- Per-segment summary of the loop body: `some c` when the stripped segment
`c` is appended to the output, `none` when the segment is discarded. -/
def processSegment (cmd : List Char) : Option (List Char) :=
  let c := pyStripL cmd
  if hasSub echoL c && hasSub gtL c then some c
  else
    match shlexSplitL c with
    | none => none
    | some [] => none
    | some (w :: _) => if w ∈ allowedL then some c else none

/-- Text preprocessing of `clean_ai_response` (`ai_shell.py` lines 26-31):
strip all leading `!` characters and surrounding whitespace, then delete each
`!`-prefixed tool marker and re-strip. -/
def cleanedText (l : List Char) : List Char :=
  tool_prefixes.foldl
    (fun acc p => pyStripL (removeAllL ('!' :: p.toList) acc))
    (pyStripL (l.dropWhile (fun c => c == '!')))

/-- Full sanitizer on a character list: preprocess, split on `&&`, run the
segment loop. -/
def cleanCore (l : List Char) : List (List Char) :=
  clean_loop (splitAmp (cleanedText l))

/-- Model of `clean_ai_response` (`ai_shell.py` lines 14-58). -/
def clean_ai_response (s : String) : List String :=
  (cleanCore s.toList).map String.mk

/-- Python `s.startswith("!")`. -/
def startsBang (s : String) : Bool :=
  s.toList.head? == some '!'

/-- Command-extraction behaviour of `main` (`ai_shell.py` lines 169-171): the
sanitizer-executor pipeline runs only when the (already stripped) generator
reply starts with `!`; otherwise no commands are produced. -/
def main_dispatch (resp : String) : List String :=
  if startsBang resp then clean_ai_response resp else []

/-- Joined shell line built by `execute_command` (`ai_shell.py` line 70). -/
def final_command (commands : List String) : String :=
  String.intercalate " && " commands

/-- Apostrophe character, used in the success message. -/
def apos : String :=
  (Char.ofNat 39).toString

/-- Error tag of the failure report (`ai_shell.py` line 77). -/
def errTag : String :=
  " ^z   ^o Error:\n"

/-- Generic success message used when standard output is empty
(`ai_shell.py` line 75). -/
def successMsg (fc : String) : String :=
  " ^z   ^o Command " ++ apos ++ fc ++ apos ++ " executed successfully."

/-- Report construction of `execute_command` (`ai_shell.py` lines 73-77) as a
function of the subprocess outcome: on exit status `0` return the stripped
standard output, or the generic success message if it is empty; otherwise
return the error tag followed by the stripped standard error. -/
def execute_report (returncode : Int) (out err fc : String) : String :=
  if returncode = 0 then
    if pyStripS out = "" then successMsg fc else pyStripS out
  else
    errTag ++ pyStripS err

/-- Segment-join used to build a well-formed multi-command reply: segments
joined by a spaced `&&` separator. -/
def joinAmpL : List (List Char) → List Char
  | [] => []
  | [s] => s
  | s :: rest => s ++ ' ' :: '&' :: '&' :: ' ' :: joinAmpL rest

/-- Segment-join at the `String` level. -/
def joinAmp (segs : List String) : String :=
  String.mk (joinAmpL (segs.map String.toList))

/-! ### String/list bridging lemmas -/

theorem toList_mk (l : List Char) : (String.mk l).toList = l := rfl

theorem mk_toList (s : String) : String.mk s.toList = s := rfl

theorem toList_append (a b : String) : (a ++ b).toList = a.toList ++ b.toList := by
  cases a
  cases b
  rfl

/-! ### Occurrence characterisations -/

theorem isPrefixOf_ex : ∀ (pat l : List Char), pat.isPrefixOf l = true ↔ ∃ q, l = pat ++ q
  | [], l => by simp [List.isPrefixOf]
  | a :: pat, [] => by simp [List.isPrefixOf]
  | a :: pat, b :: l => by
    rw [show ((a :: pat).isPrefixOf (b :: l)) = ((a == b) && pat.isPrefixOf l) from rfl]
    simp only [Bool.and_eq_true, beq_iff_eq]
    constructor
    · rintro ⟨hab, h⟩
      rcases (isPrefixOf_ex pat l).mp h with ⟨q, hq⟩
      subst hab
      subst hq
      exact ⟨q, by simp⟩
    · rintro ⟨q, hq⟩
      rw [List.cons_append] at hq
      injection hq with h1 h2
      exact ⟨h1.symm, (isPrefixOf_ex pat l).mpr ⟨q, h2⟩⟩

theorem hasSub_ex : ∀ (pat l : List Char), hasSub pat l = true ↔ ∃ p q, l = p ++ pat ++ q
  | pat, [] => by
    constructor
    · intro h
      have hp : pat = [] := by
        cases pat with
        | nil => rfl
        | cons a t => simp [hasSub] at h
      exact ⟨[], [], by simp [hp]⟩
    · rintro ⟨p, q, h⟩
      rcases List.append_eq_nil.mp h.symm with ⟨h2, h3⟩
      rcases List.append_eq_nil.mp h2 with ⟨h4, h5⟩
      subst h5
      simp [hasSub]
  | pat, c :: rest => by
    rw [show hasSub pat (c :: rest) = (pat.isPrefixOf (c :: rest) || hasSub pat rest) from rfl]
    simp only [Bool.or_eq_true]
    rw [isPrefixOf_ex, hasSub_ex pat rest]
    constructor
    · rintro (⟨q, hq⟩ | ⟨p, q, hpq⟩)
      · exact ⟨[], q, by simpa using hq⟩
      · exact ⟨c :: p, q, by rw [hpq]; simp⟩
    · rintro ⟨p, q, hpq⟩
      cases p with
      | nil => exact Or.inl ⟨q, by simpa using hpq⟩
      | cons c2 p2 =>
        right
        refine ⟨p2, q, ?_⟩
        have h2 : c :: rest = c2 :: (p2 ++ pat ++ q) := by rw [hpq]; simp [List.append_assoc]
        injection h2 with h3 h4

theorem hasSub_parts (pat p q : List Char) : hasSub pat (p ++ pat ++ q) = true :=
  (hasSub_ex pat _).mpr ⟨p, q, rfl⟩

theorem hasSub_sup (pat m p q : List Char) (h : hasSub pat m = true) :
    hasSub pat (p ++ m ++ q) = true := by
  rcases (hasSub_ex pat m).mp h with ⟨a, b, hab⟩
  exact (hasSub_ex pat _).mpr ⟨p ++ a, b ++ q, by rw [hab]; simp [List.append_assoc]⟩

/-! ### dropWhile and dropTrail algebra -/

theorem dw_len (f : Char → Bool) (l : List Char) : (l.dropWhile f).length ≤ l.length := by
  induction l with
  | nil => simp
  | cons c t ih =>
    rw [List.dropWhile_cons]
    split
    · simp only [List.length_cons]
      omega
    · simp

theorem dw_cons_self {f : Char → Bool} {c : Char} {t : List Char} (hc : f c = false) :
    (c :: t).dropWhile f = c :: t := by
  rw [List.dropWhile_cons, if_neg (by simp [hc])]

theorem dw_self_head {f : Char → Bool} {c : Char} {t : List Char}
    (h : (c :: t).dropWhile f = c :: t) : f c = false := by
  by_contra hc
  have hc2 : f c = true := by revert hc; cases f c <;> simp
  rw [List.dropWhile_cons, if_pos hc2] at h
  have h3 := congrArg List.length h
  have h4 := dw_len f t
  simp only [List.length_cons] at h3
  omega

theorem dw_dw (f : Char → Bool) (l : List Char) :
    (l.dropWhile f).dropWhile f = l.dropWhile f := by
  induction l with
  | nil => simp
  | cons c t ih =>
    rw [List.dropWhile_cons]
    split
    · exact ih
    · next h => exact dw_cons_self (by revert h; cases f c <;> simp)

theorem dw_ex (f : Char → Bool) (l : List Char) : ∃ p, l = p ++ l.dropWhile f := by
  induction l with
  | nil => exact ⟨[], rfl⟩
  | cons c t ih =>
    rw [List.dropWhile_cons]
    by_cases h : f c = true
    · rcases ih with ⟨p, hp⟩
      exact ⟨c :: p, by rw [if_pos h, List.cons_append, ← hp]⟩
    · exact ⟨[], by rw [if_neg h]; simp⟩

theorem dw_all_pre (f : Char → Bool) (pad x : List Char) (h : ∀ c ∈ pad, f c = true) :
    (pad ++ x).dropWhile f = x.dropWhile f := by
  induction pad with
  | nil => simp
  | cons c p2 ih =>
    rw [List.cons_append, List.dropWhile_cons, if_pos (h c (List.mem_cons_self c p2))]
    exact ih (fun d hd => h d (List.mem_cons_of_mem c hd))

theorem dwAppend (f : Char → Bool) (x y : List Char) :
    (x ++ y).dropWhile f =
      if (x.dropWhile f).isEmpty then y.dropWhile f else x.dropWhile f ++ y := by
  induction x with
  | nil => simp
  | cons c t ih =>
    cases h : f c with
    | false => simp [List.dropWhile_cons, h]
    | true => simp [List.dropWhile_cons, h, ih]

theorem dt_nil (f : Char → Bool) : dropTrail f [] = [] := rfl

theorem dt_len (f : Char → Bool) (l : List Char) : (dropTrail f l).length ≤ l.length := by
  unfold dropTrail
  rw [List.length_reverse]
  calc (l.reverse.dropWhile f).length ≤ l.reverse.length := dw_len f l.reverse
  _ = l.length := List.length_reverse l

theorem dt_ex (f : Char → Bool) (l : List Char) : ∃ q, l = dropTrail f l ++ q := by
  obtain ⟨p, hp⟩ := dw_ex f l.reverse
  refine ⟨p.reverse, ?_⟩
  unfold dropTrail
  have h2 := congrArg List.reverse hp
  simpa [List.reverse_append] using h2

theorem dt_idem (f : Char → Bool) (l : List Char) :
    dropTrail f (dropTrail f l) = dropTrail f l := by
  unfold dropTrail
  rw [List.reverse_reverse, dw_dw]

theorem dt_all_suf (f : Char → Bool) (y pad : List Char) (h : ∀ c ∈ pad, f c = true) :
    dropTrail f (y ++ pad) = dropTrail f y := by
  unfold dropTrail
  rw [List.reverse_append, dw_all_pre]
  intro c hc
  exact h c (List.mem_reverse.mp hc)

/-! ### pyStrip algebra -/

theorem ps_nil : pyStripL [] = [] := rfl

theorem ps_len (l : List Char) : (pyStripL l).length ≤ l.length :=
  le_trans (dt_len _ _) (dw_len _ _)

theorem ps_idem (l : List Char) : pyStripL (pyStripL l) = pyStripL l := by
  unfold pyStripL
  have hmm : (l.dropWhile isPyWs).dropWhile isPyWs = l.dropWhile isPyWs := dw_dw _ _
  rcases hd : dropTrail isPyWs (l.dropWhile isPyWs) with _ | ⟨c, t⟩
  · simp [dropTrail]
  · obtain ⟨q, hq⟩ := dt_ex isPyWs (l.dropWhile isPyWs)
    rw [hd] at hq
    have hc : isPyWs c = false := by
      apply dw_self_head (t := t ++ q)
      rw [← List.cons_append, ← hq]
      exact hmm
    rw [dw_cons_self hc, ← hd, dt_idem]

theorem ps_ex (l : List Char) : ∃ p q, l = p ++ pyStripL l ++ q := by
  obtain ⟨p, hp⟩ := dw_ex isPyWs l
  obtain ⟨q, hq⟩ := dt_ex isPyWs (l.dropWhile isPyWs)
  refine ⟨p, q, ?_⟩
  rw [List.append_assoc]
  have hq2 : l.dropWhile isPyWs = pyStripL l ++ q := hq
  rw [← hq2]
  exact hp

theorem ps_hasSub (pat l : List Char) (h : hasSub pat (pyStripL l) = true) :
    hasSub pat l = true := by
  rcases ps_ex l with ⟨p, q, hl⟩
  rw [hl]
  exact hasSub_sup _ _ _ _ h

theorem ps_all_ws (l : List Char) (h : ∀ c ∈ l, isPyWs c = true) : pyStripL l = [] := by
  unfold pyStripL
  rw [List.dropWhile_eq_nil_iff.mpr h]
  rfl

theorem ps_pad (pad1 x pad2 : List Char) (h1 : ∀ c ∈ pad1, isPyWs c = true)
    (h2 : ∀ c ∈ pad2, isPyWs c = true) :
    pyStripL (pad1 ++ x ++ pad2) = pyStripL x := by
  unfold pyStripL
  rw [List.append_assoc, dw_all_pre _ _ _ h1, dwAppend]
  by_cases he : (x.dropWhile isPyWs).isEmpty = true
  · rw [if_pos he]
    rw [List.dropWhile_eq_nil_iff.mpr h2]
    have hx : x.dropWhile isPyWs = [] := by
      cases hdw : x.dropWhile isPyWs with
      | nil => rfl
      | cons a b => rw [hdw] at he; simp at he
    rw [hx]
  · rw [if_neg he]
    exact dt_all_suf _ _ _ h2

theorem ps_id_of_ends (l : List Char) (h1 : isPyWs (l.headD 'a') = false)
    (h2 : isPyWs (l.getLastD 'a') = false) : pyStripL l = l := by
  cases l with
  | nil => rfl
  | cons c t =>
    have hc : isPyWs c = false := by simpa using h1
    unfold pyStripL
    rw [dw_cons_self hc]
    unfold dropTrail
    rcases hr : (c :: t).reverse with _ | ⟨r0, rt⟩
    · exfalso; simpa using congrArg List.length hr
    · have hr0 : isPyWs r0 = false := by
        have h3 : (c :: t).reverse.head? = some r0 := by rw [hr]; rfl
        rw [List.head?_reverse] at h3
        have h4 : (c :: t).getLastD 'a' = r0 := by
          rw [List.getLastD_eq_getLast?, h3]
          rfl
        rw [← h4]
        exact h2
      rw [dw_cons_self hr0, ← hr, List.reverse_reverse]

theorem ps_ends (l : List Char) (hl : pyStripL l = l) (hne : l ≠ []) :
    isPyWs (l.headD 'a') = false ∧ isPyWs (l.getLastD 'a') = false := by
  constructor
  · rcases l with _ | ⟨c, t⟩
    · exact absurd rfl hne
    · cases hc : isPyWs c with
      | false => simpa using hc
      | true =>
        exfalso
        have h1 : (pyStripL (c :: t)).length ≤ t.length := by
          unfold pyStripL
          rw [List.dropWhile_cons, if_pos hc]
          exact le_trans (dt_len _ _) (dw_len _ _)
        rw [hl] at h1
        simp only [List.length_cons] at h1
        omega
  · have hdw : l.dropWhile isPyWs = l := by
      obtain ⟨p, hp⟩ := dw_ex isPyWs l
      have h3 : (pyStripL l).length ≤ (l.dropWhile isPyWs).length := dt_len _ _
      rw [hl] at h3
      have h4 := congrArg List.length hp
      rw [List.length_append] at h4
      have h5 : p.length = 0 := by omega
      rw [List.length_eq_zero.mp h5] at hp
      simpa using hp.symm
    rcases hr : l.reverse with _ | ⟨r0, rt⟩
    · exfalso
      apply hne
      simpa using congrArg List.reverse hr
    · have h4 : l.getLastD 'a' = r0 := by
        have h3 : l.reverse.head? = some r0 := by rw [hr]; rfl
        rw [List.head?_reverse] at h3
        rw [List.getLastD_eq_getLast?, h3]
        rfl
      cases hr0 : isPyWs r0 with
      | false => rw [h4]; exact hr0
      | true =>
        exfalso
        have h5 : (pyStripL l).length ≤ rt.length := by
          unfold pyStripL
          rw [hdw]
          unfold dropTrail
          rw [hr, List.dropWhile_cons, if_pos hr0, List.length_reverse]
          exact dw_len _ _
        rw [hl] at h5
        have h6 : l.length = rt.length + 1 := by
          have h7 := congrArg List.length hr
          simpa using h7
        omega

/-! ### removeAll algebra -/

theorem removeFuel_id (pat : List Char) :
    ∀ (fuel : Nat) (l : List Char), hasSub pat l = false → removeFuel pat fuel l = l
  | fuel, [] => fun _ => by cases fuel <;> rfl
  | 0, _ :: _ => fun _ => rfl
  | fuel + 1, c :: rest => fun h => by
    have h2 : hasSub pat (c :: rest) = (pat.isPrefixOf (c :: rest) || hasSub pat rest) := rfl
    rw [h2] at h
    have hp : pat.isPrefixOf (c :: rest) = false := by
      cases hp2 : pat.isPrefixOf (c :: rest) with
      | false => rfl
      | true => rw [hp2] at h; simp at h
    have hr : hasSub pat rest = false := by
      cases hr2 : hasSub pat rest with
      | false => rfl
      | true => rw [hr2] at h; simp at h
    show (if pat ≠ [] ∧ pat.isPrefixOf (c :: rest) then
        removeFuel pat fuel (List.drop pat.length (c :: rest))
      else
        c :: removeFuel pat fuel rest) = c :: rest
    rw [if_neg]
    · rw [removeFuel_id pat fuel rest hr]
    · rintro ⟨h3, h4⟩
      rw [hp] at h4
      exact absurd h4 (by simp)

theorem removeAll_id (pat : List Char) (l : List Char) (h : hasSub pat l = false) :
    removeAllL pat l = l :=
  removeFuel_id pat l.length l h

/-! ### splitAmp algebra -/

theorem hasSub_amp_cons_ne (c : Char) (x : List Char) (hc : ¬ c = '&') :
    hasSub ['&', '&'] (c :: x) = hasSub ['&', '&'] x := by
  rw [show hasSub ['&', '&'] (c :: x) =
      ((['&', '&'] : List Char).isPrefixOf (c :: x) || hasSub ['&', '&'] x) from rfl]
  have h1 : (('&' : Char) == c) = false := beq_eq_false_iff_ne.mpr (Ne.symm hc)
  rw [show (['&', '&'] : List Char).isPrefixOf (c :: x) =
      ((('&' : Char) == c) && (['&'] : List Char).isPrefixOf x) from rfl, h1]
  simp

theorem hasSub_amp_pre (pad x : List Char) (h : ∀ c ∈ pad, ¬ c = '&') :
    hasSub ['&', '&'] (pad ++ x) = hasSub ['&', '&'] x := by
  induction pad with
  | nil => simp
  | cons c p2 ih =>
    rw [List.cons_append, hasSub_amp_cons_ne _ _ (h c (List.mem_cons_self c p2))]
    exact ih (fun d hd => h d (List.mem_cons_of_mem c hd))

theorem hasSub_amp_nonmem (l : List Char) (h : ∀ c ∈ l, ¬ c = '&') :
    hasSub ['&', '&'] l = false := by
  have h2 := hasSub_amp_pre l [] h
  rw [List.append_nil] at h2
  rw [h2]
  rfl

theorem hasSub_amp_concat (x : List Char) (c : Char) (hc : ¬ c = '&') :
    hasSub ['&', '&'] (x ++ [c]) = hasSub ['&', '&'] x := by
  induction x with
  | nil =>
    rw [List.nil_append, hasSub_amp_cons_ne _ _ hc]
  | cons d t ih =>
    rw [List.cons_append]
    rw [show hasSub ['&', '&'] (d :: (t ++ [c])) =
        ((['&', '&'] : List Char).isPrefixOf (d :: (t ++ [c])) ||
          hasSub ['&', '&'] (t ++ [c])) from rfl]
    rw [show hasSub ['&', '&'] (d :: t) =
        ((['&', '&'] : List Char).isPrefixOf (d :: t) || hasSub ['&', '&'] t) from rfl]
    rw [ih]
    congr 1
    rcases t with _ | ⟨e, t2⟩
    · have hcc : (('&' : Char) == c) = false := beq_eq_false_iff_ne.mpr (Ne.symm hc)
      show ((('&' : Char) == d) && (['&'] : List Char).isPrefixOf [c]) =
        ((('&' : Char) == d) && (['&'] : List Char).isPrefixOf [])
      rw [show (['&'] : List Char).isPrefixOf [c] =
          ((('&' : Char) == c) && ([] : List Char).isPrefixOf []) from rfl, hcc]
      simp [List.isPrefixOf]
    · show ((('&' : Char) == d) && (['&'] : List Char).isPrefixOf (e :: (t2 ++ [c]))) =
        ((('&' : Char) == d) && (['&'] : List Char).isPrefixOf (e :: t2))
      congr 1
      show ((('&' : Char) == e) && ([] : List Char).isPrefixOf (t2 ++ [c])) =
        ((('&' : Char) == e) && ([] : List Char).isPrefixOf t2)
      simp [List.isPrefixOf]

theorem splitAmp_nil : splitAmp [] = [[]] := rfl

theorem splitAmp_cons_pos (c : Char) (rest : List Char) (h : c = '&' ∧ rest.head? = some '&') :
    splitAmp (c :: rest) = [] :: splitAmp rest.tail := by
  obtain ⟨hc, hh⟩ := h
  subst hc
  rcases rest with _ | ⟨d, rest2⟩
  · simp at hh
  · have hd : d = '&' := by simpa using hh
    subst hd
    rfl

theorem splitAmp_cons_neg (c : Char) (rest : List Char)
    (h : ¬(c = '&' ∧ rest.head? = some '&')) :
    splitAmp (c :: rest) =
      match splitAmp rest with
      | [] => [[c]]
      | p :: ps => (c :: p) :: ps :=
  splitAmp.eq_3 c rest (fun r1 hc hr => h ⟨hc, by rw [hr]; rfl⟩)

theorem splitAmp_ne_nil (l : List Char) : splitAmp l ≠ [] := by
  induction l using splitAmp.induct with
  | case1 => simp [splitAmp_nil]
  | case2 rest ih => rw [splitAmp.eq_2]; simp
  | case3 c rest h hm ih => rw [splitAmp.eq_3 c rest h, hm]; simp
  | case4 c rest h p ps hm ih => rw [splitAmp.eq_3 c rest h, hm]; simp

theorem splitAmp_head_shape (l : List Char) :
    ∃ p ps, splitAmp l = p :: ps ∧
      (p = [] ∨ ∃ c2 rest2 q, l = c2 :: rest2 ∧ p = c2 :: q) := by
  induction l using splitAmp.induct with
  | case1 => exact ⟨[], [], rfl, Or.inl rfl⟩
  | case2 rest ih =>
    refine ⟨[], splitAmp rest, ?_, Or.inl rfl⟩
    rw [splitAmp.eq_2]
  | case3 c rest h hm ih =>
    refine ⟨[c], [], ?_, Or.inr ⟨c, rest, [], rfl, rfl⟩⟩
    rw [splitAmp.eq_3 c rest h, hm]
  | case4 c rest h p ps hm ih =>
    refine ⟨c :: p, ps, ?_, Or.inr ⟨c, rest, p, rfl, rfl⟩⟩
    rw [splitAmp.eq_3 c rest h, hm]

theorem splitAmp_no_sep (l : List Char) :
    ∀ p ∈ splitAmp l, hasSub ['&', '&'] p = false := by
  induction l using splitAmp.induct with
  | case1 =>
    intro p hp
    rw [splitAmp_nil] at hp
    rcases List.mem_cons.mp hp with h2 | h2
    · subst h2; rfl
    · simp at h2
  | case2 rest ih =>
    intro p hp
    rw [splitAmp.eq_2] at hp
    rcases List.mem_cons.mp hp with h2 | h2
    · subst h2; rfl
    · exact ih p h2
  | case3 c rest h hm ih =>
    intro p hp
    rw [splitAmp.eq_3 c rest h, hm] at hp
    have hp2 : p ∈ ([[c]] : List (List Char)) := hp
    rcases List.mem_cons.mp hp2 with h2 | h2
    · subst h2
      simp [hasSub, List.isPrefixOf]
    · simp at h2
  | case4 c rest h p0 ps hm ih =>
    intro p hp
    rw [splitAmp.eq_3 c rest h, hm] at hp
    have hp2 : p ∈ ((c :: p0) :: ps : List (List Char)) := hp
    rcases List.mem_cons.mp hp2 with h2 | h2
    · subst h2
      have hp0 : hasSub ['&', '&'] p0 = false :=
        ih p0 (by rw [hm]; exact List.mem_cons_self p0 ps)
      rw [show hasSub ['&', '&'] (c :: p0) =
          ((['&', '&'] : List Char).isPrefixOf (c :: p0) || hasSub ['&', '&'] p0) from rfl]
      rw [hp0]
      have hpre : (['&', '&'] : List Char).isPrefixOf (c :: p0) = false := by
        show ((('&' : Char) == c) && (['&'] : List Char).isPrefixOf p0) = false
        by_cases hc : c = '&'
        · subst hc
          obtain ⟨p1, ps1, hps, hsh⟩ := splitAmp_head_shape rest
          rw [hm] at hps
          injection hps with e1 e2
          rcases hsh with h3 | ⟨c2, rest2, q, hrest, hp1⟩
          · rw [e1, h3]
            simp [List.isPrefixOf]
          · have hc2 : ¬ c2 = '&' := by
              intro hc2
              subst hc2
              exact h rest2 rfl hrest
            have h4 : (('&' : Char) == c2) = false := beq_eq_false_iff_ne.mpr (Ne.symm hc2)
            rw [e1, hp1]
            rw [show (['&'] : List Char).isPrefixOf (c2 :: q) =
                ((('&' : Char) == c2) && ([] : List Char).isPrefixOf q) from rfl, h4]
            simp
        · have h1 : (('&' : Char) == c) = false := beq_eq_false_iff_ne.mpr (Ne.symm hc)
          rw [h1]
          simp
      rw [hpre]
      simp
    · exact ih p (by rw [hm]; exact List.mem_cons_of_mem _ h2)

theorem splitAmp_single (l : List Char) (h : hasSub ['&', '&'] l = false) :
    splitAmp l = [l] := by
  induction l using splitAmp.induct with
  | case1 => rfl
  | case2 rest ih =>
    exfalso
    rw [show hasSub ['&', '&'] ('&' :: '&' :: rest) =
        ((['&', '&'] : List Char).isPrefixOf ('&' :: '&' :: rest) ||
          hasSub ['&', '&'] ('&' :: rest)) from rfl] at h
    have h3 : (['&', '&'] : List Char).isPrefixOf ('&' :: '&' :: rest) = true := by
      simp [List.isPrefixOf]
    rw [h3] at h
    simp at h
  | case3 c rest h2 hm ih => exact absurd hm (splitAmp_ne_nil rest)
  | case4 c rest h2 p0 ps hm ih =>
    have hr : hasSub ['&', '&'] rest = false := by
      rw [show hasSub ['&', '&'] (c :: rest) =
          ((['&', '&'] : List Char).isPrefixOf (c :: rest) ||
            hasSub ['&', '&'] rest) from rfl] at h
      cases hx : hasSub ['&', '&'] rest with
      | false => rfl
      | true => rw [hx] at h; simp at h
    have hrest := ih hr
    rw [splitAmp.eq_3 c rest h2, hrest]

theorem split_marker (a t : List Char) (ha : hasSub ['&', '&'] a = false)
    (hlast : a.getLast? ≠ some '&') :
    splitAmp (a ++ '&' :: '&' :: t) = a :: splitAmp t := by
  induction a with
  | nil =>
    rw [List.nil_append]
    exact splitAmp.eq_2 t
  | cons c a2 ih =>
    have hcond : ¬(c = '&' ∧ (a2 ++ '&' :: '&' :: t).head? = some '&') := by
      rintro ⟨hc, hh⟩
      subst hc
      rcases a2 with _ | ⟨d, a3⟩
      · simp at hlast
      · have hd : d = '&' := by simpa using hh
        subst hd
        rw [show hasSub ['&', '&'] ('&' :: '&' :: a3) =
            ((['&', '&'] : List Char).isPrefixOf ('&' :: '&' :: a3) ||
              hasSub ['&', '&'] ('&' :: a3)) from rfl] at ha
        have h3 : (['&', '&'] : List Char).isPrefixOf ('&' :: '&' :: a3) = true := by
          simp [List.isPrefixOf]
        rw [h3] at ha
        simp at ha
    have ha2 : hasSub ['&', '&'] a2 = false := by
      rw [show hasSub ['&', '&'] (c :: a2) =
          ((['&', '&'] : List Char).isPrefixOf (c :: a2) ||
            hasSub ['&', '&'] a2) from rfl] at ha
      cases hx : hasSub ['&', '&'] a2 with
      | false => rfl
      | true => rw [hx] at ha; simp at ha
    have hlast2 : a2.getLast? ≠ some '&' := by
      rcases a2 with _ | ⟨d, a3⟩
      · simp
      · intro hcon
        apply hlast
        rw [List.getLast?_cons_cons]
        exact hcon
    have hih := ih ha2 hlast2
    rw [List.cons_append]
    rw [splitAmp_cons_neg _ _ hcond, hih]

theorem ps_no_amp (seg : List Char) (h : hasSub ['&', '&'] seg = false) :
    hasSub ['&', '&'] (pyStripL seg) = false := by
  cases hx : hasSub ['&', '&'] (pyStripL seg) with
  | false => rfl
  | true => exact absurd (ps_hasSub _ _ hx) (by rw [h]; simp)

/-! ### Nonemptiness helpers -/

theorem shlex_nil : shlexSplitL [] = some [] := rfl

theorem shlex_src_ne_nil (l : List Char) (w : List Char) (ws : List (List Char))
    (h : shlexSplitL l = some (w :: ws)) : l ≠ [] := by
  intro he
  subst he
  rw [shlex_nil] at h
  simp at h

theorem hasSub_src_ne_nil (pat l : List Char) (hpat : pat ≠ []) (h : hasSub pat l = true) :
    l ≠ [] := by
  intro he
  subst he
  rcases (hasSub_ex pat []).mp h with ⟨p, q, hpq⟩
  rcases List.append_eq_nil.mp hpq.symm with ⟨h2, h3⟩
  rcases List.append_eq_nil.mp h2 with ⟨h4, h5⟩
  exact hpat h5

/-! ### Loop / per-segment correspondence -/

theorem clean_go_cons (cmd : List Char) (rest acc : List (List Char)) :
    clean_go (cmd :: rest) acc =
      match processSegment cmd with
      | some c => clean_go rest (acc ++ [c])
      | none => clean_go rest acc := by
  cases h1 : hasSub echoL (pyStripL cmd) && hasSub gtL (pyStripL cmd) with
  | true => simp [clean_go, processSegment, h1]
  | false =>
    cases hs : shlexSplitL (pyStripL cmd) with
    | none => simp [clean_go, processSegment, h1, hs]
    | some parts =>
      cases parts with
      | nil => simp [clean_go, processSegment, h1, hs]
      | cons w ws =>
        by_cases hw : w ∈ allowedL
        · simp [clean_go, processSegment, h1, hs, hw]
        · simp [clean_go, processSegment, h1, hs, hw]

theorem clean_go_filterMap (l : List (List Char)) :
    ∀ acc, clean_go l acc = acc ++ l.filterMap processSegment := by
  induction l with
  | nil => intro acc; simp [clean_go]
  | cons cmd rest ih =>
    intro acc
    rw [clean_go_cons]
    cases hp : processSegment cmd with
    | none =>
      show clean_go rest acc = acc ++ List.filterMap processSegment (cmd :: rest)
      rw [ih]
      simp [List.filterMap_cons, hp]
    | some c =>
      show clean_go rest (acc ++ [c]) = acc ++ List.filterMap processSegment (cmd :: rest)
      rw [ih]
      simp [List.filterMap_cons, hp, List.append_assoc]

theorem clean_loop_eq (l : List (List Char)) :
    clean_loop l = l.filterMap processSegment := by
  unfold clean_loop
  rw [clean_go_filterMap]
  simp

theorem processSegment_congr (a b : List Char) (h : pyStripL a = pyStripL b) :
    processSegment a = processSegment b := by
  unfold processSegment
  rw [h]

theorem processSegment_some (cmd c : List Char) (h : processSegment cmd = some c) :
    c = pyStripL cmd ∧
      ((hasSub echoL c = true ∧ hasSub gtL c = true) ∨
        ∃ w ws, shlexSplitL c = some (w :: ws) ∧ w ∈ allowedL) := by
  cases h1 : hasSub echoL (pyStripL cmd) && hasSub gtL (pyStripL cmd) with
  | true =>
    simp only [processSegment, h1, if_true] at h
    rcases Bool.and_eq_true .. |>.mp h1 with ⟨ha, hb⟩
    injection h with h2
    subst h2
    exact ⟨rfl, Or.inl ⟨ha, hb⟩⟩
  | false =>
    simp only [processSegment, h1] at h
    cases hs : shlexSplitL (pyStripL cmd) with
    | none => simp [hs] at h
    | some parts =>
      cases parts with
      | nil => simp [hs] at h
      | cons w ws =>
        simp only [hs] at h
        by_cases hw : w ∈ allowedL
        · rw [if_pos hw] at h
          injection h with h2
          subst h2
          exact ⟨rfl, Or.inr ⟨w, ws, hs, hw⟩⟩
        · rw [if_neg hw] at h
          simp at h

theorem processSegment_self (s : List Char) (hps : pyStripL s = s)
    (h : (hasSub echoL s = true ∧ hasSub gtL s = true) ∨
      ∃ w ws, shlexSplitL s = some (w :: ws) ∧ w ∈ allowedL) :
    processSegment s = some s := by
  rcases h with ⟨h1, h2⟩ | ⟨w, ws, hs, hw⟩
  · simp [processSegment, hps, h1, h2]
  · cases h1 : hasSub echoL s && hasSub gtL s with
    | true => simp [processSegment, hps, h1]
    | false => simp [processSegment, hps, h1, hs, hw]

theorem processSegment_none_of_fail (cmd : List Char)
    (h1 : (hasSub echoL (pyStripL cmd) && hasSub gtL (pyStripL cmd)) = false)
    (h2 : shlexSplitL (pyStripL cmd) = none) : processSegment cmd = none := by
  simp [processSegment, h1, h2]

/-! ### Membership and invariants of the sanitizer output -/

theorem mem_cleanCore (r c : List Char) :
    c ∈ cleanCore r ↔ ∃ seg ∈ splitAmp (cleanedText r), processSegment seg = some c := by
  unfold cleanCore
  rw [clean_loop_eq]
  simp [List.mem_filterMap]

theorem echoL_ne_nil : echoL ≠ [] := by decide

theorem cleanCore_invariant (r c : List Char) (h : c ∈ cleanCore r) :
    pyStripL c = c ∧ c ≠ [] ∧ hasSub ['&', '&'] c = false ∧
      ((hasSub echoL c = true ∧ hasSub gtL c = true) ∨
        ∃ w ws, shlexSplitL c = some (w :: ws) ∧ w ∈ allowedL) := by
  rcases (mem_cleanCore r c).mp h with ⟨seg, hseg, hps⟩
  rcases processSegment_some seg c hps with ⟨hc, hcase⟩
  subst hc
  refine ⟨ps_idem seg, ?_, ?_, hcase⟩
  · rcases hcase with ⟨h1, h2⟩ | ⟨w, ws, hs, hw⟩
    · exact hasSub_src_ne_nil echoL (pyStripL seg) echoL_ne_nil h1
    · exact shlex_src_ne_nil _ w ws hs
  · exact ps_no_amp seg (splitAmp_no_sep (cleanedText r) seg hseg)

theorem mem_clean_ai_response (r s : String) :
    s ∈ clean_ai_response r ↔ s.toList ∈ cleanCore r.toList := by
  unfold clean_ai_response
  constructor
  · intro h
    rcases List.mem_map.mp h with ⟨c, hc, he⟩
    rw [← he]
    simpa [toList_mk] using hc
  · intro h
    exact List.mem_map.mpr ⟨s.toList, h, mk_toList s⟩

/-- When none of the `!`-prefixed tool markers occurs in the stripped text,
the marker-removal fold of `cleanedText` is the identity. -/
theorem cleanedText_eq (l : List Char)
    (h : ∀ p ∈ tool_prefixes,
      hasSub ('!' :: p.toList) (pyStripL (l.dropWhile (fun c => c == '!'))) = false) :
    cleanedText l = pyStripL (l.dropWhile (fun c => c == '!')) := by
  unfold cleanedText
  have e1 : pyStripL (pyStripL (l.dropWhile (fun c => c == '!'))) =
      pyStripL (l.dropWhile (fun c => c == '!')) := ps_idem _
  rw [show tool_prefixes = ["file_manager", "web_search", "system_control"] from rfl]
  rw [List.foldl_cons, List.foldl_cons, List.foldl_cons, List.foldl_nil]
  rw [removeAll_id _ _ (h "file_manager" (by simp [tool_prefixes])), e1]
  rw [removeAll_id _ _ (h "web_search" (by simp [tool_prefixes])), e1]
  rw [removeAll_id _ _ (h "system_control" (by simp [tool_prefixes])), e1]

theorem filterMap_sub_map (l : List (List Char)) :
    List.Sublist (l.filterMap processSegment) (l.map pyStripL) := by
  induction l with
  | nil => simp
  | cons cmd rest ih =>
    rw [List.filterMap_cons, List.map_cons]
    cases hp : processSegment cmd with
    | none =>
      show List.Sublist (List.filterMap processSegment rest)
        (pyStripL cmd :: List.map pyStripL rest)
      exact List.Sublist.cons _ ih
    | some c =>
      have hc : c = pyStripL cmd := (processSegment_some cmd c hp).1
      show List.Sublist (c :: List.filterMap processSegment rest)
        (pyStripL cmd :: List.map pyStripL rest)
      rw [hc]
      exact List.Sublist.cons₂ _ ih

/-- Claim C10: the sanitizer is invariant under prepending one more sentinel marker:
`clean_ai_response ("!" ++ r) = clean_ai_response r` for every reply `r`,
because `lstrip("!")` removes all leading `!` characters at once, so `!!!ls`
is treated exactly like `!ls`. -/
theorem spec_c10 (r : String) : clean_ai_response ("!" ++ r) = clean_ai_response r := by
  have h1 : ("!" ++ r).toList = '!' :: r.toList := by rw [toList_append]; rfl
  unfold clean_ai_response cleanCore cleanedText
  rw [h1]
  rw [show ('!' :: r.toList).dropWhile (fun c => c == '!') =
      (r.toList).dropWhile (fun c => c == '!') from by rw [List.dropWhile_cons]; simp]

/-- Claim C7: the sanitizer's output is exactly the in-order `filterMap` of the
per-segment decision over the `&&`-split of the cleaned text, and hence a
subsequence of the stripped segments: order is preserved and duplicate
surviving segments each yield their own output element. -/
theorem spec_c7 (r : String) :
    cleanCore r.toList = (splitAmp (cleanedText r.toList)).filterMap processSegment ∧
      List.Sublist (cleanCore r.toList) ((splitAmp (cleanedText r.toList)).map pyStripL) := by
  have h1 : cleanCore r.toList = (splitAmp (cleanedText r.toList)).filterMap processSegment := by
    unfold cleanCore
    exact clean_loop_eq _
  exact ⟨h1, by rw [h1]; exact filterMap_sub_map _⟩

/-- Claim C9: every string the sanitizer returns is non-empty, equal to its own
whitespace-stripped form, and contains no occurrence of `&&`, so the
executor's later `" && "`-join is unambiguous. -/
theorem spec_c9 (r s : String) (h : s ∈ clean_ai_response r) :
    s ≠ "" ∧ pyStripS s = s ∧ strContains s "&&" = false := by
  have hmem : s.toList ∈ cleanCore r.toList := (mem_clean_ai_response r s).mp h
  rcases cleanCore_invariant _ _ hmem with ⟨h1, h2, h3, h4⟩
  refine ⟨?_, ?_, ?_⟩
  · intro he
    subst he
    exact h2 rfl
  · unfold pyStripS
    rw [h1]
    exact mk_toList s
  · unfold strContains
    rw [show ("&&" : String).toList = ['&', '&'] from rfl]
    exact h3

theorem spec_c9_witness :
    ("ls" : String) ≠ "" ∧ pyStripS "ls" = "ls" ∧ strContains "ls" "&&" = false :=
  spec_c9 "!ls" "ls" (by decide)

/-- Claim C8: a segment whose tokenization fails (and which does not satisfy the
echo-redirection exception) is silently discarded: the loop's result on any
segment list containing it equals the result on the list with it removed, so
the remaining segments are processed unaffected and no output arises from
the failing segment. -/
theorem spec_c8 (seg : List Char) (l1 l2 : List (List Char))
    (h1 : (hasSub echoL (pyStripL seg) && hasSub gtL (pyStripL seg)) = false)
    (h2 : shlexSplitL (pyStripL seg) = none) :
    clean_loop (l1 ++ seg :: l2) = clean_loop (l1 ++ l2) := by
  have hn : processSegment seg = none := processSegment_none_of_fail seg h1 h2
  rw [clean_loop_eq, clean_loop_eq, List.filterMap_append, List.filterMap_append]
  congr 1
  simp [List.filterMap_cons, hn]

theorem spec_c8_witness :
    clean_loop (["ls".toList] ++ "cat \"x".toList :: ["pwd".toList]) =
      clean_loop (["ls".toList] ++ ["pwd".toList]) :=
  spec_c8 ("cat \"x".toList) ["ls".toList] ["pwd".toList] (by decide) (by decide)

/-- Claim C3: a segment of the cleaned reply whose stripped text contains both the
substring `echo` and the substring `>` is accepted verbatim (the stripped
segment itself is the output, with no re-tokenization) unconditionally — no
allowlist check is applied to it. -/
theorem spec_c3 (r : String) (seg : List Char)
    (hseg : seg ∈ splitAmp (cleanedText r.toList))
    (h1 : hasSub echoL (pyStripL seg) = true)
    (h2 : hasSub gtL (pyStripL seg) = true) :
    processSegment seg = some (pyStripL seg) ∧
      String.mk (pyStripL seg) ∈ clean_ai_response r := by
  have hps : processSegment seg = some (pyStripL seg) := by
    simp [processSegment, h1, h2]
  refine ⟨hps, ?_⟩
  apply (mem_clean_ai_response r (String.mk (pyStripL seg))).mpr
  rw [toList_mk]
  exact (mem_cleanCore _ _).mpr ⟨seg, hseg, hps⟩

theorem spec_c3_witness :
    processSegment ("foo echo x > y".toList) = some (pyStripL ("foo echo x > y".toList)) ∧
      String.mk (pyStripL ("foo echo x > y".toList)) ∈ clean_ai_response "!foo echo x > y" :=
  spec_c3 "!foo echo x > y" ("foo echo x > y".toList) (by decide) (by decide) (by decide)

/-- Claim C1 (counterexample): `clean_ai_response` itself does not return an empty
list on a reply that lacks the sentinel marker — on the bare reply `ls` it
returns `["ls"]`; the refusal to execute non-sentinel replies lives in
`main`'s guard, not in the sanitizer. -/
theorem spec_c1_counterexample :
    clean_ai_response "ls" = ["ls"] ∧ startsBang (pyStripS "ls") = false := by decide

/-- Claim C1 (amended): the non-command check is performed by the caller: for every
reply whose stripped text does not start with the sentinel marker, `main`'s
guard produces no commands at all (the sanitizer is never consulted). -/
theorem spec_c1_amended (r : String) (h : startsBang (pyStripS r) = false) :
    main_dispatch (pyStripS r) = [] := by
  simp [main_dispatch, h]

theorem spec_c1_witness : main_dispatch (pyStripS "hello there") = [] :=
  spec_c1_amended "hello there" (by decide)

/-- Claim C2 (counterexample): the echo-redirection exception defeats the allowlist
invariant: the reply `!sudo echo hi > f` yields the output
`sudo echo hi > f`, whose first shell token `sudo` is not in
`allowed_commands`. -/
theorem spec_c2_counterexample :
    clean_ai_response "!sudo echo hi > f" = ["sudo echo hi > f"] ∧
      shlexSplit "sudo echo hi > f" = some ["sudo", "echo", "hi", ">", "f"] ∧
      "sudo" ∉ allowed_commands := by decide

/-- Claim C2 (amended): every string in the sanitizer's output either contains both
substrings `echo` and `>` (accepted through the redirection exception) or has
a first shell token in the allowlist; in particular the literal
`sudo rm -rf /` (which contains neither `echo` nor `>`) never appears in the
output, whatever surrounds it. -/
theorem spec_c2_amended (r s : String) (h : s ∈ clean_ai_response r) :
    ((strContains s "echo" = true ∧ strContains s ">" = true) ∨
      ∃ w ws, shlexSplit s = some (w :: ws) ∧ w ∈ allowed_commands) ∧
      s ≠ "sudo rm -rf /" := by
  have hmem : s.toList ∈ cleanCore r.toList := (mem_clean_ai_response r s).mp h
  rcases cleanCore_invariant _ _ hmem with ⟨h1, h2, h3, h4⟩
  have hmain : (strContains s "echo" = true ∧ strContains s ">" = true) ∨
      ∃ w ws, shlexSplit s = some (w :: ws) ∧ w ∈ allowed_commands := by
    rcases h4 with ⟨ha, hb⟩ | ⟨w, ws, hs, hw⟩
    · exact Or.inl ⟨ha, hb⟩
    · right
      refine ⟨String.mk w, ws.map String.mk, ?_, ?_⟩
      · unfold shlexSplit
        rw [hs]
        rfl
      · unfold allowedL at hw
        rcases List.mem_map.mp hw with ⟨a, haa, hae⟩
        rw [← hae, mk_toList]
        exact haa
  refine ⟨hmain, ?_⟩
  intro he
  subst he
  rcases hmain with ⟨ha, hb⟩ | ⟨w, ws, hs, hw⟩
  · revert ha
    decide
  · have hcomp : shlexSplit "sudo rm -rf /" = some ["sudo", "rm", "-rf", "/"] := by decide
    rw [hcomp] at hs
    injection hs with h5
    injection h5 with h6 h7
    subst h6
    exact absurd hw (by decide)

theorem spec_c2_witness :
    ((strContains "cat f" "echo" = true ∧ strContains "cat f" ">" = true) ∨
      ∃ w ws, shlexSplit "cat f" = some (w :: ws) ∧ w ∈ allowed_commands) ∧
      ("cat f" : String) ≠ "sudo rm -rf /" :=
  spec_c2_amended "!cat f" "cat f" (by decide)

/-- Claim C5 (counterexample): on a successful exit with non-empty standard output,
the report is exactly the stripped standard output — the captured standard
error (`warn` here) is discarded, not appended. -/
theorem spec_c5_counterexample :
    execute_report 0 "out" "warn" "ls" = "out" ∧
      strContains (execute_report 0 "out" "warn" "ls") "warn" = false := by decide

/-- Claim C5 (amended): a nonzero exit status produces the error-tagged report
containing the stripped standard error; a zero exit status produces the
stripped standard output, or the generic success message when the output is
empty — standard error is not included in a success report. -/
theorem spec_c5_amended (rc : Int) (out err fc : String) :
    (rc ≠ 0 → execute_report rc out err fc = errTag ++ pyStripS err ∧
      strContains (execute_report rc out err fc) (pyStripS err) = true) ∧
    (rc = 0 → pyStripS out ≠ "" → execute_report rc out err fc = pyStripS out) ∧
    (rc = 0 → pyStripS out = "" → execute_report rc out err fc = successMsg fc) := by
  refine ⟨?_, ?_, ?_⟩
  · intro hrc
    have he : execute_report rc out err fc = errTag ++ pyStripS err := by
      unfold execute_report
      rw [if_neg hrc]
    refine ⟨he, ?_⟩
    rw [he]
    unfold strContains
    rw [toList_append]
    have h2 := hasSub_parts ((pyStripS err).toList) errTag.toList []
    simpa using h2
  · intro hrc hout
    unfold execute_report
    rw [if_pos hrc, if_neg hout]
  · intro hrc hout
    unfold execute_report
    rw [if_pos hrc, if_pos hout]

theorem spec_c5_witness :
    execute_report 1 "out" "boom" "ls" = errTag ++ pyStripS "boom" ∧
      strContains (execute_report 1 "out" "boom" "ls") (pyStripS "boom") = true :=
  (spec_c5_amended 1 "out" "boom" "ls").1 (by decide)

/-- Claim C6 (counterexample): re-sanitizing an output wrapped with the sentinel is
not always the identity: the reply `!ls && !echo hi > f` returns the string
`!echo hi > f`, but sanitizing `!` ++ that string strips both leading `!`
characters and yields `["echo hi > f"]`, not the string back. -/
theorem spec_c6_counterexample :
    ("!echo hi > f" : String) ∈ clean_ai_response "!ls && !echo hi > f" ∧
      clean_ai_response ("!" ++ "!echo hi > f") ≠ ["!echo hi > f"] := by decide

/-- Claim C6 (amended): for every output `s` of the sanitizer that does not itself
start with `!` and contains no `!`-prefixed tool-marker substring,
re-sanitizing `"!" ++ s` yields exactly `[s]`. -/
theorem spec_c6_amended (r s : String) (h : s ∈ clean_ai_response r)
    (hb : startsBang s = false)
    (hp : ∀ p ∈ tool_prefixes, strContains s ("!" ++ p) = false) :
    clean_ai_response ("!" ++ s) = [s] := by
  have hmem : s.toList ∈ cleanCore r.toList := (mem_clean_ai_response r s).mp h
  rcases cleanCore_invariant _ _ hmem with ⟨h1, h2, h3, h4⟩
  have ht : ("!" ++ s).toList = '!' :: s.toList := by rw [toList_append]; rfl
  have hdw2 : (s.toList).dropWhile (fun c => c == '!') = s.toList := by
    rcases hs : s.toList with _ | ⟨c, t⟩
    · rfl
    · apply dw_cons_self
      unfold startsBang at hb
      rw [hs] at hb
      have hcc : ¬ c = '!' := by
        intro hcc
        subst hcc
        simp at hb
      exact beq_eq_false_iff_ne.mpr hcc
  have hdw : (('!' :: s.toList) : List Char).dropWhile (fun c => c == '!') = s.toList := by
    rw [List.dropWhile_cons]
    rw [if_pos (by simp)]
    exact hdw2
  have hct : cleanedText ('!' :: s.toList) = s.toList := by
    rw [cleanedText_eq]
    · rw [hdw, h1]
    · intro p hp2
      rw [hdw, h1]
      have h5 := hp p hp2
      unfold strContains at h5
      rw [toList_append] at h5
      simpa using h5
  have hsome : processSegment s.toList = some s.toList := processSegment_self _ h1 h4
  have hfm : List.filterMap processSegment [s.toList] = [s.toList] := by
    rw [List.filterMap_cons, hsome]
    rfl
  unfold clean_ai_response cleanCore
  rw [ht, hct, splitAmp_single _ h3, clean_loop_eq, hfm]
  simp [mk_toList]

theorem spec_c6_witness : clean_ai_response ("!" ++ "ls") = ["ls"] :=
  spec_c6_amended "!ls" "ls" (by decide) (by decide) (by decide)

/-! ### Well-formed multi-segment replies (support for C4) -/

theorem joinAmpL_single (s : List Char) : joinAmpL [s] = s := rfl

theorem joinAmpL_cons (s r : List Char) (rest : List (List Char)) :
    joinAmpL (s :: r :: rest) = s ++ ' ' :: '&' :: '&' :: ' ' :: joinAmpL (r :: rest) := rfl

theorem joinAmpL_ne_nil (s : List Char) (rest : List (List Char)) (hs : s ≠ []) :
    joinAmpL (s :: rest) ≠ [] := by
  cases rest with
  | nil => simpa using hs
  | cons r rs =>
    rw [joinAmpL_cons]
    simp

theorem joinAmpL_headD (s : List Char) (rest : List (List Char)) (hs : s ≠ []) :
    (joinAmpL (s :: rest)).headD 'a' = s.headD 'a' := by
  cases rest with
  | nil => rfl
  | cons r rs =>
    rw [joinAmpL_cons]
    rcases s with _ | ⟨c, t⟩
    · exact absurd rfl hs
    · rfl

theorem getLastD_indep (l : List Char) (hl : l ≠ []) (d1 d2 : Char) :
    l.getLastD d1 = l.getLastD d2 := by
  rcases l with _ | ⟨c, t⟩
  · exact absurd rfl hl
  · rw [List.getLastD_cons, List.getLastD_cons]

theorem getLastD_append_right (x y : List Char) (hy : y ≠ []) (d : Char) :
    (x ++ y).getLastD d = y.getLastD d := by
  induction x with
  | nil => rfl
  | cons c t ih =>
    rw [List.cons_append, List.getLastD_cons]
    rw [getLastD_indep (t ++ y) (by simp [hy]) c d, ih]

theorem joinAmpL_getLastD (segs : List (List Char)) (hne : segs ≠ [])
    (hall : ∀ t ∈ segs, t ≠ []) :
    ∃ t, t ∈ segs ∧ (joinAmpL segs).getLastD 'a' = t.getLastD 'a' := by
  induction segs with
  | nil => exact absurd rfl hne
  | cons s rest ih =>
    cases rest with
    | nil => exact ⟨s, List.mem_cons_self s [], by rw [joinAmpL_single]⟩
    | cons r rs =>
      obtain ⟨t, ht, he⟩ := ih (by simp) (fun t ht => hall t (List.mem_cons_of_mem _ ht))
      refine ⟨t, List.mem_cons_of_mem _ ht, ?_⟩
      have hJne : joinAmpL (r :: rs) ≠ [] :=
        joinAmpL_ne_nil r rs (hall r (List.mem_cons_of_mem _ (List.mem_cons_self r rs)))
      rw [joinAmpL_cons]
      rw [getLastD_append_right _ _ (by simp)]
      rw [List.getLastD_cons, List.getLastD_cons, List.getLastD_cons, List.getLastD_cons]
      rw [getLastD_indep _ hJne ' ' 'a', he]

theorem clean_join (segsL : List (List Char)) :
    ∀ pad : List Char, (∀ c ∈ pad, c = ' ') →
    (∀ s ∈ segsL,
      pyStripL s = s ∧ hasSub ['&', '&'] s = false ∧ s ≠ [] ∧ processSegment s = some s) →
    clean_loop (splitAmp (pad ++ joinAmpL segsL)) = segsL := by
  induction segsL with
  | nil =>
    intro pad hpad hs
    rw [show joinAmpL [] = [] from rfl, List.append_nil]
    have hnosep : hasSub ['&', '&'] pad = false :=
      hasSub_amp_nonmem pad (fun c hc => by rw [hpad c hc]; decide)
    rw [splitAmp_single _ hnosep, clean_loop_eq]
    have hpe : processSegment pad = none := by
      have hstrip : pyStripL pad = [] := ps_all_ws pad (fun c hc => by rw [hpad c hc]; rfl)
      unfold processSegment
      rw [hstrip]
      rfl
    simp [List.filterMap_cons, hpe]
  | cons s rest ih =>
    intro pad hpad hs
    obtain ⟨hps, hamp, hne, hsome⟩ := hs s (List.mem_cons_self s rest)
    cases rest with
    | nil =>
      rw [joinAmpL_single]
      have hnosep : hasSub ['&', '&'] (pad ++ s) = false := by
        rw [hasSub_amp_pre pad s (fun c hc => by rw [hpad c hc]; decide)]
        exact hamp
      rw [splitAmp_single _ hnosep, clean_loop_eq]
      have hstrip : pyStripL (pad ++ s) = s := by
        have h6 := ps_pad pad s [] (fun c hc => by rw [hpad c hc]; rfl)
          (by intro c hc; simp at hc)
        rw [List.append_nil] at h6
        rw [h6, hps]
      have hpe : processSegment (pad ++ s) = some s := by
        have hcongr : processSegment (pad ++ s) = processSegment s :=
          processSegment_congr _ _ (by rw [hstrip, hps])
        rw [hcongr, hsome]
      simp [List.filterMap_cons, hpe]
    | cons r rs =>
      rw [joinAmpL_cons]
      have hassoc : pad ++ (s ++ ' ' :: '&' :: '&' :: ' ' :: joinAmpL (r :: rs)) =
          (pad ++ s ++ [' ']) ++ '&' :: '&' :: (' ' :: joinAmpL (r :: rs)) := by
        simp [List.append_assoc]
      rw [hassoc]
      have hspad : ∀ c ∈ pad, ¬ c = '&' := fun c hc => by rw [hpad c hc]; decide
      have ha : hasSub ['&', '&'] (pad ++ s ++ [' ']) = false := by
        rw [List.append_assoc, hasSub_amp_pre pad _ hspad]
        rw [show (['&', '&'] : List Char) = ['&', '&'] from rfl]
        rw [hasSub_amp_concat s ' ' (by decide)]
        exact hamp
      have hlast : (pad ++ s ++ [' ']).getLast? ≠ some '&' := by
        rw [List.getLast?_concat]
        simp
      rw [split_marker _ _ ha hlast]
      rw [clean_loop_eq, List.filterMap_cons]
      have hstrip : pyStripL (pad ++ s ++ [' ']) = s := by
        have h6 := ps_pad pad s [' '] (fun c hc => by rw [hpad c hc]; rfl)
          (by intro c hc; simp at hc; rw [hc]; rfl)
        rw [h6, hps]
      have hpe : processSegment (pad ++ s ++ [' ']) = some s := by
        have hcongr : processSegment (pad ++ s ++ [' ']) = processSegment s :=
          processSegment_congr _ _ (by rw [hstrip, hps])
        rw [hcongr, hsome]
      rw [hpe]
      show s :: List.filterMap processSegment (splitAmp (' ' :: joinAmpL (r :: rs))) =
        s :: r :: rs
      have hih := ih [' '] (by intro c hc; simp at hc; exact hc)
        (fun t ht => hs t (List.mem_cons_of_mem _ ht))
      rw [clean_loop_eq] at hih
      rw [List.singleton_append] at hih
      rw [hih]

theorem shlexSplit_char (s w : String) (ws : List String)
    (h : shlexSplit s = some (w :: ws)) :
    ∃ wsL, shlexSplitL s.toList = some (w.toList :: wsL) := by
  unfold shlexSplit at h
  cases hs : shlexSplitL s.toList with
  | none => rw [hs] at h; simp at h
  | some parts =>
    rw [hs] at h
    cases parts with
    | nil => simp at h
    | cons a t =>
      refine ⟨t, ?_⟩
      injection h with h2
      simp only [List.map_cons] at h2
      injection h2 with h3 h4
      rw [← h3, toList_mk]

theorem allowed_char (w : String) (h : w ∈ allowed_commands) : w.toList ∈ allowedL :=
  List.mem_map.mpr ⟨w, h, rfl⟩

theorem map_mk_toList (l : List String) : (l.map String.toList).map String.mk = l := by
  induction l with
  | nil => rfl
  | cons a t ih => simp [ih, mk_toList]

/-- Claim C4: for every reply consisting of the sentinel marker followed by
`&&`-joined segments that are trimmed, contain no `&&` and no sentinel or
tool-marker text, and tokenize successfully with an allowlisted first word,
the sanitizer returns exactly one string per segment, in the original order,
with the sentinel marker stripped. -/
theorem spec_c4 (segs : List String)
    (h1 : ∀ s ∈ segs, pyStripS s = s)
    (h2 : ∀ s ∈ segs, strContains s "&&" = false)
    (h3 : ∀ s ∈ segs, startsBang s = false)
    (h4 : ∀ s ∈ segs, ∃ w ws, shlexSplit s = some (w :: ws) ∧ w ∈ allowed_commands)
    (h5 : ∀ p ∈ tool_prefixes, strContains (joinAmp segs) ("!" ++ p) = false) :
    clean_ai_response ("!" ++ joinAmp segs) = segs := by
  have hfacts : ∀ s ∈ segs, pyStripL s.toList = s.toList ∧
      hasSub ['&', '&'] s.toList = false ∧ s.toList ≠ [] ∧
      processSegment s.toList = some s.toList := by
    intro s hsmem
    have ha : pyStripL s.toList = s.toList := by
      have h6 := congrArg String.toList (h1 s hsmem)
      rwa [show (pyStripS s).toList = pyStripL s.toList from rfl] at h6
    obtain ⟨w, ws, hsp, hwmem⟩ := h4 s hsmem
    obtain ⟨wsL, hspc⟩ := shlexSplit_char s w ws hsp
    have hbne : s.toList ≠ [] := shlex_src_ne_nil _ _ _ hspc
    have hbamp : hasSub ['&', '&'] s.toList = false := by
      have h7 := h2 s hsmem
      unfold strContains at h7
      rwa [show ("&&" : String).toList = ['&', '&'] from rfl] at h7
    exact ⟨ha, hbamp, hbne,
      processSegment_self _ ha (Or.inr ⟨w.toList, wsL, hspc, allowed_char w hwmem⟩)⟩
  cases hsegs : segs with
  | nil =>
    subst hsegs
    decide
  | cons s0 rest0 =>
    subst hsegs
    obtain ⟨ha0, hb0, hc0, hd0⟩ := hfacts s0 (List.mem_cons_self s0 rest0)
    have hJ : (joinAmp (s0 :: rest0)).toList =
        joinAmpL ((s0 :: rest0).map String.toList) := by
      unfold joinAmp
      rw [toList_mk]
    have htop : ("!" ++ joinAmp (s0 :: rest0)).toList =
        '!' :: joinAmpL ((s0 :: rest0).map String.toList) := by
      rw [toList_append, hJ]
      rfl
    have hLmem : ∀ t ∈ (s0 :: rest0).map String.toList,
        ∃ s, s ∈ (s0 :: rest0) ∧ t = s.toList := by
      intro t ht
      rcases List.mem_map.mp ht with ⟨s, hsm, he⟩
      exact ⟨s, hsm, he.symm⟩
    have hLne : ∀ t ∈ (s0 :: rest0).map String.toList, t ≠ [] := by
      intro t ht
      rcases hLmem t ht with ⟨s, hsm, rfl⟩
      exact (hfacts s hsm).2.2.1
    have hhead0 : ¬ s0.toList.headD 'a' = '!' := by
      have hb := h3 s0 (List.mem_cons_self s0 rest0)
      unfold startsBang at hb
      rcases hsl : s0.toList with _ | ⟨c, t⟩
      · exact absurd hsl hc0
      · rw [hsl] at hb
        intro hcc
        simp only [List.headD_cons] at hcc
        subst hcc
        simp at hb
    have hdwJ : (('!' :: joinAmpL ((s0 :: rest0).map String.toList)) :
        List Char).dropWhile (fun c => c == '!') =
        joinAmpL ((s0 :: rest0).map String.toList) := by
      rw [List.dropWhile_cons, if_pos (by simp)]
      rcases hJs : joinAmpL ((s0 :: rest0).map String.toList) with _ | ⟨c0, t0⟩
      · rfl
      · apply dw_cons_self
        have hh : (joinAmpL ((s0 :: rest0).map String.toList)).headD 'a' =
            s0.toList.headD 'a' := joinAmpL_headD _ _ hc0
        rw [hJs] at hh
        simp only [List.headD_cons] at hh
        apply beq_eq_false_iff_ne.mpr
        rw [hh]
        exact hhead0
    have hpsJ : pyStripL (joinAmpL ((s0 :: rest0).map String.toList)) =
        joinAmpL ((s0 :: rest0).map String.toList) := by
      apply ps_id_of_ends
      · rw [show (joinAmpL ((s0 :: rest0).map String.toList)).headD 'a' =
            s0.toList.headD 'a' from joinAmpL_headD _ _ hc0]
        exact (ps_ends s0.toList ha0 hc0).1
      · obtain ⟨t, htmem, hte⟩ :=
          joinAmpL_getLastD ((s0 :: rest0).map String.toList) (by simp) hLne
        rw [hte]
        rcases hLmem t htmem with ⟨s, hsm, rfl⟩
        exact (ps_ends s.toList (hfacts s hsm).1 (hfacts s hsm).2.2.1).2
    have hct : cleanedText ('!' :: joinAmpL ((s0 :: rest0).map String.toList)) =
        joinAmpL ((s0 :: rest0).map String.toList) := by
      rw [cleanedText_eq]
      · rw [hdwJ, hpsJ]
      · intro p hp
        rw [hdwJ, hpsJ]
        have h6 := h5 p hp
        unfold strContains at h6
        rw [toList_append, hJ] at h6
        exact h6
    have hfacts2 : ∀ t ∈ (s0 :: rest0).map String.toList,
        pyStripL t = t ∧ hasSub ['&', '&'] t = false ∧ t ≠ [] ∧
          processSegment t = some t := by
      intro t ht
      rcases hLmem t ht with ⟨s, hsm, rfl⟩
      exact hfacts s hsm
    have hjoin := clean_join ((s0 :: rest0).map String.toList) []
      (by intro c hc; simp at hc) hfacts2
    rw [List.nil_append] at hjoin
    unfold clean_ai_response cleanCore
    rw [htop, hct, hjoin]
    exact map_mk_toList _

theorem spec_c4_witness :
    clean_ai_response ("!" ++ joinAmp ["mkdir demo", "touch demo/a.txt"]) =
      ["mkdir demo", "touch demo/a.txt"] :=
  spec_c4 ["mkdir demo", "touch demo/a.txt"]
    (by decide) (by decide) (by decide)
    (by
      intro s hs
      simp only [List.mem_cons, List.not_mem_nil, or_false] at hs
      rcases hs with rfl | rfl
      · exact ⟨"mkdir", ["demo"], by decide, by decide⟩
      · exact ⟨"touch", ["demo/a.txt"], by decide, by decide⟩)
    (by decide)
